import Mathlib

/-!
Verification of the colortrade repository's computational core
(colortrade_tools.py): the constrained edge-coloring solver
`all_edge_colorings_with_vertex_constraints`, the trade relation
`is_colortrade`, and `build_trade_graph`.

Modelling conventions:
* A networkx graph is a node list plus an edge list; both keep insertion
  order, and the edge list order is the canonical edge order of a solve.
* Python dicts are association lists (insertion order preserved);
  `dictGet` is d[k] returning an Option (none models a KeyError).
* Python sets of colors are lists without duplicates; set values compare
  by membership only, so restoring a set "exactly" means permutation of
  the underlying list.  Set iteration order is unspecified in Python; the
  model fixes it as the order of the underlying list.
* The raise statements of the validation phase become an Except value
  whose error constructors mirror the three distinguishable messages.
* Machine integers: the forward check subtracts Python ints, modelled on
  Int to keep the subtraction exact.
-/

namespace Colortrade

/-- A graph as stored by networkx: nodes in insertion order, and edges
keyed by the ordered pair under which each was inserted. -/
structure Graph (V : Type) where
  nodes : List V
  edges : List (V × V)

/-- A coloring: the dict mapping edge keys to colors, in insertion order
(which for a completed solution is the canonical edge order). -/
abbrev Coloring (V C : Type) := List ((V × V) × C)

/-- Python dict lookup d[k] on an association list; none models KeyError. -/
def dictGet {K A : Type} [DecidableEq K] (m : List (K × A)) (k : K) : Option A :=
  (m.find? (fun p => decide (p.1 = k))).map Prod.snd

/-- Python dict assignment d[k] = a: overwrite in place when the key is
present, otherwise append the new binding at the end. -/
def dictInsert {K A : Type} [DecidableEq K] (m : List (K × A)) (k : K) (a : A) :
    List (K × A) :=
  if (m.find? (fun p => decide (p.1 = k))).isSome then
    m.map (fun p => if p.1 = k then (k, a) else p)
  else m ++ [(k, a)]

/-- Python del d[k]: drop the binding for key k. -/
def dictRemove {K A : Type} [DecidableEq K] (m : List (K × A)) (k : K) : List (K × A) :=
  m.filter (fun p => decide (p.1 ≠ k))

/-- vertex_colors[v]: the color list the constraint map assigns to v
(defaulting to the empty list; the solver only reads it at keys). -/
def requiredList {V C : Type} [DecidableEq V] (vc : List (V × List C)) (v : V) : List C :=
  (dictGet vc v).getD []

/-- set(a) == set(b) for two lists, as Python compares the node set with
the key set of the constraint map. -/
def sameSet {V : Type} [DecidableEq V] (a b : List V) : Bool :=
  a.all (fun x => decide (x ∈ b)) && b.all (fun x => decide (x ∈ a))

/-- networkx G.degree(w): every edge contributes one per endpoint equal
to w (so a self-loop would contribute two, as in networkx). -/
def degree {V : Type} [DecidableEq V] (G : Graph V) (w : V) : Nat :=
  (G.edges.map (fun e => (if e.1 = w then 1 else 0) + (if e.2 = w then 1 else 0))).sum

/-- Python set intersection of two color sets, iterated in the order of
the first underlying list. -/
def setInter {C : Type} [DecidableEq C] (l1 l2 : List C) : List C :=
  l1.filter (fun c => decide (c ∈ l2))

/-- Pointwise update of a per-vertex bookkeeping table. -/
def updF {V A : Type} [DecidableEq V] (f : V → A) (v : V) (a : A) : V → A :=
  fun w => if w = v then a else f w

/-- Apply g to the entry at u and then to the entry at v, as the source
mutates its per-vertex tables at the first endpoint then the second. -/
def upd2 {V A : Type} [DecidableEq V] (f : V → A) (u v : V) (g : A → A) : V → A :=
  let f1 := updF f u (g (f u))
  updF f1 v (g (f1 v))

/-- Number of edges of the list having w as an endpoint. -/
def incidentCount {V : Type} [DecidableEq V] (w : V) (es : List (V × V)) : Nat :=
  (es.filter (fun e => decide (e.1 = w) || decide (e.2 = w))).length

/-- Colors that a (partial) coloring places on the edges incident to w. -/
def incidentColors {V C : Type} [DecidableEq V] (w : V) (sol : Coloring V C) : List C :=
  (sol.filter (fun p => decide (p.1.1 = w) || decide (p.1.2 = w))).map Prod.snd

/-- The three ValueError kinds raised by the validation phase of
all_edge_colorings_with_vertex_constraints, distinguishable in the source
by their messages (lines 110-125). -/
inductive ColorError (V : Type) where
  | vertexSetMismatch
  | duplicateColor (v : V)
  | degreeMismatch (v : V) (deg : Nat) (ncolors : Nat)
deriving DecidableEq

/-- The per-vertex validation loop (lines 116-125): for each vertex in
node order, first the duplicate-color check (len(set(cs)) vs len(cs)),
then the degree versus constraint-set-size check. -/
def checkNodes {V C : Type} [DecidableEq V] [DecidableEq C]
    (G : Graph V) (vc : List (V × List C)) : List V → Except (ColorError V) Unit
  | [] => Except.ok ()
  | v :: rest =>
    if (requiredList vc v).dedup.length ≠ (requiredList vc v).length then
      Except.error (ColorError.duplicateColor v)
    else if degree G v ≠ (requiredList vc v).dedup.length then
      Except.error (ColorError.degreeMismatch v (degree G v) (requiredList vc v).dedup.length)
    else
      checkNodes G vc rest

/-- The recursive search (lines 139-187), written functionally: the list
argument is the suffix of the canonical edge list still to color,
remaining is remaining_colors, placed is colored_incident, and each
returned element is the list of colors chosen for that suffix in order.
The forward check is the Int comparison of lines 167-173, and the base
case keeps the all-remaining-empty guard of line 142. -/
def backtrack {V C : Type} [DecidableEq V] [DecidableEq C]
    (deg : V → Nat) (nodes : List V) :
    List (V × V) → (V → List C) → (V → Nat) → List (List C)
  | [], remaining, _ =>
    if nodes.all (fun w => decide (remaining w = [])) then [[]] else []
  | (u, v) :: rest, remaining, placed =>
    (setInter (remaining u) (remaining v)).flatMap (fun c =>
      let rem2 := upd2 remaining u v (fun s => s.erase c)
      let pl2 := upd2 placed u v (fun n => n + 1)
      if ((rem2 u).length : Int) ≤ (deg u : Int) - (pl2 u : Int) ∧
         ((rem2 v).length : Int) ≤ (deg v : Int) - (pl2 v : Int) then
        (backtrack deg nodes rest rem2 pl2).map (fun cs => c :: cs)
      else [])

/-- all_edge_colorings_with_vertex_constraints (lines 88-188): eager
validation, then the backtracking search from the initial bookkeeping
state; each recorded solution is the edge list zipped with the chosen
colors, i.e. the dict keyed exactly as in G.edges(). -/
def all_edge_colorings_with_vertex_constraints {V C : Type} [DecidableEq V] [DecidableEq C]
    (G : Graph V) (vc : List (V × List C)) :
    Except (ColorError V) (List (Coloring V C)) :=
  if sameSet G.nodes (vc.map Prod.fst) = false then
    Except.error ColorError.vertexSetMismatch
  else
    match checkNodes G vc G.nodes with
    | Except.error e => Except.error e
    | Except.ok _ =>
      Except.ok ((backtrack (degree G) G.nodes G.edges
          (fun v => (requiredList vc v).dedup) (fun _ => 0)).map
        (fun cs => G.edges.zip cs))

/-- The same search with the final all-remaining-empty guard dropped
(the base case records unconditionally); used to state claim C7, that
the guard never rejects a completed assignment. -/
def backtrackNC {V C : Type} [DecidableEq V] [DecidableEq C]
    (deg : V → Nat) (nodes : List V) :
    List (V × V) → (V → List C) → (V → Nat) → List (List C)
  | [], _, _ => [[]]
  | (u, v) :: rest, remaining, placed =>
    (setInter (remaining u) (remaining v)).flatMap (fun c =>
      let rem2 := upd2 remaining u v (fun s => s.erase c)
      let pl2 := upd2 placed u v (fun n => n + 1)
      if ((rem2 u).length : Int) ≤ (deg u : Int) - (pl2 u : Int) ∧
         ((rem2 v).length : Int) ≤ (deg v : Int) - (pl2 v : Int) then
        (backtrackNC deg nodes rest rem2 pl2).map (fun cs => c :: cs)
      else [])

/-- The solver with the defensive final guard dropped, for claim C7. -/
def all_edge_colorings_nocheck {V C : Type} [DecidableEq V] [DecidableEq C]
    (G : Graph V) (vc : List (V × List C)) :
    Except (ColorError V) (List (Coloring V C)) :=
  if sameSet G.nodes (vc.map Prod.fst) = false then
    Except.error ColorError.vertexSetMismatch
  else
    match checkNodes G vc G.nodes with
    | Except.error e => Except.error e
    | Except.ok _ =>
      Except.ok ((backtrackNC (degree G) G.nodes G.edges
          (fun v => (requiredList vc v).dedup) (fun _ => 0)).map
        (fun cs => G.edges.zip cs))

/-- The mutable search state of one in-flight solve: remaining_colors,
used_colors, colored_incident and the partial edge_colors dict. -/
structure SearchState (V C : Type) where
  remaining : V → List C
  used : V → List C
  placed : V → Nat
  edgeColors : List ((V × V) × C)

/-- Lines 156-165: tentatively assign color c to edge (u, v): record it
in edge_colors, add it to used at both endpoints, remove it from
remaining at both endpoints, and bump both incident counters. -/
def assignEdge {V C : Type} [DecidableEq V] [DecidableEq C]
    (st : SearchState V C) (u v : V) (c : C) : SearchState V C :=
  { remaining := upd2 st.remaining u v (fun s => s.erase c)
    used := upd2 st.used u v (fun s => s.insert c)
    placed := upd2 st.placed u v (fun n => n + 1)
    edgeColors := dictInsert st.edgeColors (u, v) c }

/-- Lines 178-185: undo the tentative assignment: decrement both incident
counters, add c back to remaining at both endpoints, remove it from used,
and delete the edge from edge_colors. -/
def undoEdge {V C : Type} [DecidableEq V] [DecidableEq C]
    (st : SearchState V C) (u v : V) (c : C) : SearchState V C :=
  { remaining := upd2 st.remaining u v (fun s => s.insert c)
    used := upd2 st.used u v (fun s => s.erase c)
    placed := upd2 st.placed u v (fun n => n - 1)
    edgeColors := dictRemove st.edgeColors (u, v) }

/-- The search again, this time threading the mutable state and the
growing solutions list exactly as the imperative source does: the
candidate loop folds over the intersection computed on entry, each
iteration assigns, maybe recurses, then undoes; the base case appends a
value copy of the current edge_colors dict to the solutions list. -/
def backtrackS {V C : Type} [DecidableEq V] [DecidableEq C]
    (deg : V → Nat) (nodes : List V) :
    List (V × V) → SearchState V C × List (Coloring V C) →
      SearchState V C × List (Coloring V C)
  | [], p =>
    if nodes.all (fun w => decide (p.1.remaining w = [])) then
      (p.1, p.2 ++ [p.1.edgeColors])
    else p
  | (u, v) :: rest, p =>
    (setInter (p.1.remaining u) (p.1.remaining v)).foldl
      (fun q c =>
        let st1 := assignEdge q.1 u v c
        let q2 :=
          if ((st1.remaining u).length : Int) ≤ (deg u : Int) - (st1.placed u : Int) ∧
             ((st1.remaining v).length : Int) ≤ (deg v : Int) - (st1.placed v : Int) then
            backtrackS deg nodes rest (st1, q.2)
          else (st1, q.2)
        (undoEdge q2.1 u v c, q2.2)) p

/-- All colors mentioned anywhere in the constraint map. -/
def colorPool {V C : Type} [DecidableEq C] (vc : List (V × List C)) : List C :=
  (vc.flatMap Prod.snd).dedup

/-- Modelled from the spec (section 8, naive re-verification): every way
of assigning one pool color to each of n edges, as color lists. -/
def allAssignments {C : Type} (pool : List C) : Nat → List (List C)
  | 0 => [[]]
  | Nat.succ n => pool.flatMap (fun c => (allAssignments pool n).map (fun cs => c :: cs))

/-- Modelled from the spec (sections 3 and 8): a total coloring is valid
when every vertex wears exactly its required color set: no repeats, and
the same elements as the constraint list. -/
def isValidColoring {V C : Type} [DecidableEq V] [DecidableEq C]
    (nodes : List V) (vc : List (V × List C)) (sol : Coloring V C) : Bool :=
  nodes.all (fun w =>
    decide ((incidentColors w sol).Nodup) &&
    (incidentColors w sol).all (fun c => decide (c ∈ requiredList vc w)) &&
    (requiredList vc w).all (fun c => decide (c ∈ incidentColors w sol)))

/-- Modelled from the spec: naive enumeration of all edge-color
assignments filtered by validity, the reference point for claim C2. -/
def naiveAllColorings {V C : Type} [DecidableEq V] [DecidableEq C]
    (G : Graph V) (vc : List (V × List C)) : List (Coloring V C) :=
  ((allAssignments (colorPool vc) G.edges.length).map (fun cs => G.edges.zip cs)).filter
    (fun sol => isValidColoring G.nodes vc sol)

/-- The loop of is_colortrade (lines 436-438): walk the items of s1,
look each edge up in s2 (none models the KeyError on a missing edge),
and answer false at the first edge colored equally in both. -/
def tradeLoop {V C : Type} [DecidableEq V] [DecidableEq C]
    (s2 : Coloring V C) : List ((V × V) × C) → Option Bool
  | [] => some true
  | (e, c) :: rest =>
    match dictGet s2 e with
    | none => none
    | some c2 => if c2 = c then some false else tradeLoop s2 rest

/-- is_colortrade (lines 431-439): true when every edge gets different
colors in the two colorings. -/
def is_colortrade {V C : Type} [DecidableEq V] [DecidableEq C]
    (s1 s2 : Coloring V C) : Option Bool :=
  tradeLoop s2 s1

/-- itertools.combinations(range n, 2): the ordered pairs (i, j) with
i < j < n, in lexicographic order. -/
def pairsLT (n : Nat) : List (Nat × Nat) :=
  (List.range n).flatMap (fun i =>
    ((List.range n).filter (fun j => decide (i < j))).map (fun j => (i, j)))

/-- build_trade_graph (lines 441-451): nodes 0..n-1, and an edge for
every combination pair whose two solutions are a color trade. -/
def build_trade_graph {V C : Type} [DecidableEq V] [DecidableEq C]
    (sols : List (Coloring V C)) : Graph Nat :=
  { nodes := List.range sols.length
    edges := (pairsLT sols.length).filter
      (fun p => decide (is_colortrade (sols.getD p.1 []) (sols.getD p.2 []) = some true)) }

/-! ### Helper lemmas -/

theorem sameSet_eq_true_iff {V : Type} [DecidableEq V] (a b : List V) :
    sameSet a b = true ↔ ((∀ x ∈ a, x ∈ b) ∧ ∀ x ∈ b, x ∈ a) := by
  simp [sameSet, List.all_eq_true]

theorem dictGet_eq_none_iff {K A : Type} [DecidableEq K] :
    ∀ (m : List (K × A)) (k : K), dictGet m k = none ↔ k ∉ m.map Prod.fst
  | [], k => by simp [dictGet]
  | p :: rest, k => by
    by_cases hk : p.1 = k
    · simp [dictGet, List.find?, hk]
    · have := dictGet_eq_none_iff rest k
      simp only [dictGet, List.find?, decide_eq_true_eq, hk, decide_False] at this ⊢
      simpa [hk, Ne.symm hk] using this

theorem dictGet_eq_some_iff {K A : Type} [DecidableEq K] :
    ∀ (m : List (K × A)), (m.map Prod.fst).Nodup →
      ∀ (k : K) (a : A), (dictGet m k = some a ↔ (k, a) ∈ m)
  | [], _, k, a => by simp [dictGet]
  | p :: rest, h, k, a => by
    obtain ⟨k0, a0⟩ := p
    simp only [List.map_cons, List.nodup_cons] at h
    by_cases hk : k0 = k
    · subst hk
      simp only [dictGet, List.find?, decide_True, Option.map_some, List.mem_cons]
      constructor
      · rintro h2
        left
        simpa using h2.symm
      · rintro (h2 | h2)
        · simp [Prod.ext_iff] at h2
          simp [h2]
        · exact absurd (List.mem_map_of_mem Prod.fst h2) h.1
    · simp only [dictGet, List.find?, hk, decide_False, List.mem_cons]
      have := dictGet_eq_some_iff rest h.2 k a
      simp only [dictGet] at this
      rw [this]
      constructor
      · exact Or.inr
      · rintro (h2 | h2)
        · exact absurd (congrArg Prod.fst h2).symm hk
        · exact h2

theorem dictGet_isSome_of_mem_keys {K A : Type} [DecidableEq K]
    {m : List (K × A)} {k : K} (h : k ∈ m.map Prod.fst) : ∃ a, dictGet m k = some a := by
  cases hm : dictGet m k with
  | none => exact absurd ((dictGet_eq_none_iff m k).mp hm) (not_not_intro h)
  | some a => exact ⟨a, rfl⟩

theorem checkNodes_ok_iff {V C : Type} [DecidableEq V] [DecidableEq C]
    (G : Graph V) (vc : List (V × List C)) :
    ∀ l : List V, (checkNodes G vc l = Except.ok () ↔
      ∀ v ∈ l, (requiredList vc v).dedup.length = (requiredList vc v).length ∧
        degree G v = (requiredList vc v).dedup.length)
  | [] => by simp [checkNodes]
  | v :: rest => by
    by_cases h1 : (requiredList vc v).dedup.length ≠ (requiredList vc v).length
    · simp only [checkNodes, if_pos h1]
      constructor
      · intro h
        exact absurd h (by simp)
      · intro h
        exact absurd (h v (by simp)).1 h1
    · by_cases h2 : degree G v ≠ (requiredList vc v).dedup.length
      · simp only [checkNodes, if_neg h1, if_pos h2]
        constructor
        · intro h
          exact absurd h (by simp)
        · intro h
          exact absurd (h v (by simp)).2 h2
      · simp only [checkNodes, if_neg h1, if_neg h2]
        rw [checkNodes_ok_iff G vc rest]
        push_neg at h1 h2
        constructor
        · intro h w hw
          rcases List.mem_cons.mp hw with hw | hw
          · subst hw
            exact ⟨h1, h2⟩
          · exact h w hw
        · intro h w hw
          exact h w (List.mem_cons_of_mem _ hw)

theorem checkNodes_ne_vertexSetMismatch {V C : Type} [DecidableEq V] [DecidableEq C]
    (G : Graph V) (vc : List (V × List C)) :
    ∀ l : List V, checkNodes G vc l ≠ Except.error ColorError.vertexSetMismatch
  | [] => by simp [checkNodes]
  | v :: rest => by
    simp only [checkNodes]
    split
    · simp
    · split
      · simp
      · exact checkNodes_ne_vertexSetMismatch G vc rest

theorem checkNodes_error_dup {V C : Type} [DecidableEq V] [DecidableEq C]
    (G : Graph V) (vc : List (V × List C)) (v : V) :
    ∀ l : List V, checkNodes G vc l = Except.error (ColorError.duplicateColor v) →
      v ∈ l ∧ (requiredList vc v).dedup.length ≠ (requiredList vc v).length
  | [] => by simp [checkNodes]
  | w :: rest => by
    simp only [checkNodes]
    split
    · next h1 =>
      intro h
      have : w = v := by simpa using h
      subst this
      exact ⟨by simp, h1⟩
    · split
      · next h2 =>
        intro h
        simp at h
      · intro h
        have := checkNodes_error_dup G vc v rest h
        exact ⟨List.mem_cons_of_mem _ this.1, this.2⟩

theorem checkNodes_error_deg {V C : Type} [DecidableEq V] [DecidableEq C]
    (G : Graph V) (vc : List (V × List C)) (v : V) (d k : Nat) :
    ∀ l : List V, checkNodes G vc l = Except.error (ColorError.degreeMismatch v d k) →
      v ∈ l ∧ d = degree G v ∧ k = (requiredList vc v).dedup.length ∧ d ≠ k
  | [] => by simp [checkNodes]
  | w :: rest => by
    simp only [checkNodes]
    split
    · intro h
      simp at h
    · split
      · next h2 =>
        intro h
        have hw : w = v ∧ degree G w = d ∧ (requiredList vc w).dedup.length = k := by
          simpa using h
        obtain ⟨hwv, hd, hk⟩ := hw
        subst hwv
        exact ⟨by simp, hd.symm, hk.symm, by rw [← hd, ← hk]; exact h2⟩
      · intro h
        have := checkNodes_error_deg G vc v d k rest h
        exact ⟨List.mem_cons_of_mem _ this.1, this.2⟩

theorem solver_ok_iff {V C : Type} [DecidableEq V] [DecidableEq C]
    (G : Graph V) (vc : List (V × List C)) (sols : List (Coloring V C)) :
    all_edge_colorings_with_vertex_constraints G vc = Except.ok sols ↔
      sameSet G.nodes (vc.map Prod.fst) = true ∧
      checkNodes G vc G.nodes = Except.ok () ∧
      sols = (backtrack (degree G) G.nodes G.edges
        (fun v => (requiredList vc v).dedup) (fun _ => 0)).map (fun cs => G.edges.zip cs) := by
  unfold all_edge_colorings_with_vertex_constraints
  split
  · next h =>
    simp [h]
  · next h =>
    have h' : sameSet G.nodes (vc.map Prod.fst) = true := by
      cases hb : sameSet G.nodes (vc.map Prod.fst) with
      | false => exact absurd hb h
      | true => rfl
    split
    · next e he =>
      simp [h', he]
    · next u hok =>
      cases u
      simp [h', hok, eq_comm]

theorem dedup_length_eq_iff {C : Type} [DecidableEq C] (l : List C) :
    l.dedup.length = l.length ↔ l.Nodup := by
  constructor
  · intro h
    have h2 := List.Sublist.eq_of_length (List.dedup_sublist l) h
    rw [← h2]
    exact List.nodup_dedup l
  · intro h
    rw [List.dedup_eq_self.mpr h]

theorem tradeLoop_ne_none {V C : Type} [DecidableEq V] [DecidableEq C] (s2 : Coloring V C) :
    ∀ s1 : List ((V × V) × C), (∀ p ∈ s1, p.1 ∈ s2.map Prod.fst) → tradeLoop s2 s1 ≠ none
  | [], _ => by simp [tradeLoop]
  | (e, c) :: rest, hcov => by
    obtain ⟨a, ha⟩ := dictGet_isSome_of_mem_keys (hcov (e, c) (by simp))
    simp only [tradeLoop, ha]
    by_cases hac : a = c
    · simp [hac]
    · rw [if_neg hac]
      exact tradeLoop_ne_none s2 rest (fun p hp => hcov p (List.mem_cons_of_mem _ hp))

theorem tradeLoop_eq_some_true_iff {V C : Type} [DecidableEq V] [DecidableEq C]
    (s2 : Coloring V C) :
    ∀ s1 : List ((V × V) × C), (∀ p ∈ s1, p.1 ∈ s2.map Prod.fst) →
      (tradeLoop s2 s1 = some true ↔ ∀ p ∈ s1, dictGet s2 p.1 ≠ some p.2)
  | [], _ => by simp [tradeLoop]
  | (e, c) :: rest, hcov => by
    obtain ⟨a, ha⟩ := dictGet_isSome_of_mem_keys (hcov (e, c) (by simp))
    simp only [tradeLoop, ha]
    by_cases hac : a = c
    · subst hac
      rw [if_pos rfl]
      constructor
      · intro h
        simp at h
      · intro h
        exact absurd ha (h (e, a) (by simp))
    · rw [if_neg hac,
        tradeLoop_eq_some_true_iff s2 rest (fun p hp => hcov p (List.mem_cons_of_mem _ hp))]
      constructor
      · intro h p hp
        rcases List.mem_cons.mp hp with rfl | hp
        · simpa [ha] using hac
        · exact h p hp
      · intro h p hp
        exact h p (List.mem_cons_of_mem _ hp)

theorem is_colortrade_eq_some_true_iff {V C : Type} [DecidableEq V] [DecidableEq C]
    (s1 s2 : Coloring V C)
    (h2 : (s2.map Prod.fst).Nodup)
    (hcov : ∀ p ∈ s1, p.1 ∈ s2.map Prod.fst) :
    is_colortrade s1 s2 = some true ↔
      ∀ e c1 c2, (e, c1) ∈ s1 → (e, c2) ∈ s2 → c1 ≠ c2 := by
  rw [is_colortrade, tradeLoop_eq_some_true_iff s2 s1 hcov]
  constructor
  · intro h e c1 c2 hm1 hm2 hcc
    subst hcc
    exact h (e, c1) hm1 ((dictGet_eq_some_iff s2 h2 e c1).mpr hm2)
  · intro h p hp hd
    exact h p.1 p.2 p.2 hp ((dictGet_eq_some_iff s2 h2 p.1 p.2).mp hd) rfl

theorem is_colortrade_symm_aux {V C : Type} [DecidableEq V] [DecidableEq C]
    (s1 s2 : Coloring V C)
    (h1 : (s1.map Prod.fst).Nodup) (h2 : (s2.map Prod.fst).Nodup)
    (hsame : ∀ e, e ∈ s1.map Prod.fst ↔ e ∈ s2.map Prod.fst) :
    is_colortrade s1 s2 = is_colortrade s2 s1 := by
  have cov12 : ∀ p ∈ s1, p.1 ∈ s2.map Prod.fst :=
    fun p hp => (hsame p.1).mp (List.mem_map_of_mem Prod.fst hp)
  have cov21 : ∀ p ∈ s2, p.1 ∈ s1.map Prod.fst :=
    fun p hp => (hsame p.1).mpr (List.mem_map_of_mem Prod.fst hp)
  have key : (∀ e c1 c2, (e, c1) ∈ s1 → (e, c2) ∈ s2 → c1 ≠ c2) ↔
      (∀ e c1 c2, (e, c1) ∈ s2 → (e, c2) ∈ s1 → c1 ≠ c2) := by
    constructor
    · intro h e c1 c2 ha hb hcc
      exact (h e c2 c1 hb ha) hcc.symm
    · intro h e c1 c2 ha hb hcc
      exact (h e c2 c1 hb ha) hcc.symm
  have i12 := is_colortrade_eq_some_true_iff s1 s2 h2 cov12
  have i21 := is_colortrade_eq_some_true_iff s2 s1 h1 cov21
  have n12 : is_colortrade s1 s2 ≠ none := tradeLoop_ne_none s2 s1 cov12
  have n21 : is_colortrade s2 s1 ≠ none := tradeLoop_ne_none s1 s2 cov21
  cases hx : is_colortrade s1 s2 with
  | none => exact absurd hx n12
  | some b =>
    cases hy : is_colortrade s2 s1 with
    | none => exact absurd hy n21
    | some b2 =>
      cases b with
      | true =>
        have := i21.mpr (key.mp (i12.mp hx))
        rw [hy] at this
        exact this.symm
      | false =>
        cases b2 with
        | false => rfl
        | true =>
          have := i12.mpr (key.mpr (i21.mp hy))
          rw [hx] at this
          simp at this

theorem mem_pairsLT (n i j : Nat) : (i, j) ∈ pairsLT n ↔ i < j ∧ j < n := by
  simp only [pairsLT, List.mem_flatMap, List.mem_map, List.mem_filter, List.mem_range,
    decide_eq_true_eq]
  constructor
  · rintro ⟨a, ha, b, ⟨hb, hab⟩, heq⟩
    obtain ⟨rfl, rfl⟩ := Prod.mk.injEq .. ▸ And.intro (congrArg Prod.fst heq)
      (congrArg Prod.snd heq)
    exact ⟨hab, hb⟩
  · rintro ⟨hij, hjn⟩
    exact ⟨i, lt_trans hij hjn, j, ⟨hjn, hij⟩, rfl⟩

theorem getD_mem_of_lt {α : Type} (l : List α) (i : Nat) (d : α) (h : i < l.length) :
    l.getD i d ∈ l := by
  rw [List.getD_eq_getElem l d h]
  exact List.getElem_mem h

theorem updF_same {V A : Type} [DecidableEq V] (f : V → A) (v : V) (a : A) :
    updF f v a v = a := by
  simp [updF]

theorem updF_other {V A : Type} [DecidableEq V] (f : V → A) (v : V) (a : A) (w : V)
    (h : w ≠ v) : updF f v a w = f w := by
  simp [updF, h]

theorem upd2_left {V A : Type} [DecidableEq V] (f : V → A) (u v : V) (g : A → A)
    (h : u ≠ v) : upd2 f u v g u = g (f u) := by
  simp only [upd2]
  rw [updF_other _ _ _ _ h, updF_same]

theorem upd2_right {V A : Type} [DecidableEq V] (f : V → A) (u v : V) (g : A → A)
    (h : u ≠ v) : upd2 f u v g v = g (f v) := by
  simp only [upd2]
  rw [updF_same, updF_other _ _ _ _ (Ne.symm h)]

theorem upd2_other {V A : Type} [DecidableEq V] (f : V → A) (u v : V) (g : A → A)
    (w : V) (hu : w ≠ u) (hv : w ≠ v) : upd2 f u v g w = f w := by
  simp only [upd2]
  rw [updF_other _ _ _ _ hv, updF_other _ _ _ _ hu]

theorem mem_setInter {C : Type} [DecidableEq C] (c : C) (l1 l2 : List C) :
    c ∈ setInter l1 l2 ↔ c ∈ l1 ∧ c ∈ l2 := by
  simp [setInter, List.mem_filter]

theorem incidentColors_nil {V C : Type} [DecidableEq V] (w : V) :
    incidentColors w ([] : Coloring V C) = [] := rfl

theorem incidentColors_cons_pos {V C : Type} [DecidableEq V] (w u v : V) (c : C)
    (l : Coloring V C) (h : u = w ∨ v = w) :
    incidentColors w (((u, v), c) :: l) = c :: incidentColors w l := by
  rcases h with h | h <;> simp [incidentColors, h]

theorem incidentColors_cons_neg {V C : Type} [DecidableEq V] (w u v : V) (c : C)
    (l : Coloring V C) (hu : u ≠ w) (hv : v ≠ w) :
    incidentColors w (((u, v), c) :: l) = incidentColors w l := by
  simp [incidentColors, hu, hv]

theorem incidentCount_cons_pos {V : Type} [DecidableEq V] (w u v : V)
    (es : List (V × V)) (h : u = w ∨ v = w) :
    incidentCount w ((u, v) :: es) = incidentCount w es + 1 := by
  rcases h with h | h <;> simp [incidentCount, h]

theorem incidentCount_cons_neg {V : Type} [DecidableEq V] (w u v : V)
    (es : List (V × V)) (hu : u ≠ w) (hv : v ≠ w) :
    incidentCount w ((u, v) :: es) = incidentCount w es := by
  simp [incidentCount, hu, hv]

theorem length_incidentColors {V C : Type} [DecidableEq V] (w : V) :
    ∀ (es : List (V × V)) (cs : List C), cs.length = es.length →
      (incidentColors w (es.zip cs)).length = incidentCount w es
  | [], cs, _ => by simp [incidentColors, incidentCount]
  | (u, v) :: es, [], h => by simp at h
  | (u, v) :: es, c :: cs, h => by
    have hlen : cs.length = es.length := by simpa using h
    have ih := length_incidentColors w es cs hlen
    rw [List.zip_cons_cons]
    by_cases hu : u = w
    · rw [incidentColors_cons_pos _ _ _ _ _ (Or.inl hu),
        incidentCount_cons_pos _ _ _ _ (Or.inl hu)]
      simp [ih]
    · by_cases hv : v = w
      · rw [incidentColors_cons_pos _ _ _ _ _ (Or.inr hv),
          incidentCount_cons_pos _ _ _ _ (Or.inr hv)]
        simp [ih]
      · rw [incidentColors_cons_neg _ _ _ _ _ hu hv, incidentCount_cons_neg _ _ _ _ hu hv]
        exact ih

theorem degSum_eq_incidentCount {V : Type} [DecidableEq V] (w : V) :
    ∀ es : List (V × V), (∀ e ∈ es, e.1 ≠ e.2) →
      (es.map (fun e => (if e.1 = w then 1 else 0) + (if e.2 = w then 1 else 0))).sum =
        incidentCount w es
  | [], _ => by simp [incidentCount]
  | (u, v) :: es, h => by
    have hne : u ≠ v := h (u, v) (by simp)
    have ih := degSum_eq_incidentCount w es (fun e he => h e (List.mem_cons_of_mem _ he))
    by_cases hu : u = w
    · have hv : v ≠ w := fun hh => hne (hu.trans hh.symm)
      rw [incidentCount_cons_pos w u v es (Or.inl hu)]
      simp [hu, hv, ih]
      omega
    · by_cases hv : v = w
      · rw [incidentCount_cons_pos w u v es (Or.inr hv)]
        simp [hu, hv, ih]
        omega
      · rw [incidentCount_cons_neg w u v es hu hv]
        simp [hu, hv, ih]

theorem degree_eq_incidentCount {V : Type} [DecidableEq V] (G : Graph V)
    (hwf : ∀ e ∈ G.edges, e.1 ≠ e.2) (w : V) :
    degree G w = incidentCount w G.edges :=
  degSum_eq_incidentCount w G.edges hwf

theorem backtrack_sound {V C : Type} [DecidableEq V] [DecidableEq C]
    (deg : V → Nat) (nodes : List V) :
    ∀ (es : List (V × V)) (remaining : V → List C) (placed : V → Nat) (cs : List C),
      (∀ e ∈ es, e.1 ≠ e.2) →
      cs ∈ backtrack deg nodes es remaining placed →
      cs.length = es.length ∧
      ∀ w ∈ nodes, (incidentColors w (es.zip cs)).Perm (remaining w)
  | [], remaining, placed, cs, _, hmem => by
    simp only [backtrack] at hmem
    split at hmem
    · next hall =>
      have hcs : cs = [] := by simpa using hmem
      subst hcs
      refine ⟨rfl, fun w hw => ?_⟩
      have hrem : remaining w = [] := of_decide_eq_true (List.all_eq_true.mp hall w hw)
      simp [incidentColors, hrem]
    · simp at hmem
  | (u, v) :: rest, remaining, placed, cs, hwf, hmem => by
    have hne : u ≠ v := hwf (u, v) (by simp)
    simp only [backtrack, List.mem_flatMap] at hmem
    obtain ⟨c, hcpos, hcs⟩ := hmem
    obtain ⟨hcu, hcv⟩ := (mem_setInter c _ _).mp hcpos
    split at hcs
    · next hcond =>
      rw [List.mem_map] at hcs
      obtain ⟨cs2, hcs2, rfl⟩ := hcs
      obtain ⟨ihlen, ihperm⟩ := backtrack_sound deg nodes rest _ _ cs2
        (fun e he => hwf e (List.mem_cons_of_mem _ he)) hcs2
      refine ⟨by simp [ihlen], fun w hw => ?_⟩
      rw [List.zip_cons_cons]
      by_cases hu : u = w
      · subst hu
        rw [incidentColors_cons_pos u u v c _ (Or.inl rfl)]
        have hp := ihperm u hw
        rw [upd2_left _ _ _ _ hne] at hp
        exact (hp.cons c).trans (List.perm_cons_erase hcu).symm
      · by_cases hv : v = w
        · subst hv
          rw [incidentColors_cons_pos v u v c _ (Or.inr rfl)]
          have hp := ihperm v hw
          rw [upd2_right _ _ _ _ hne] at hp
          exact (hp.cons c).trans (List.perm_cons_erase hcv).symm
        · rw [incidentColors_cons_neg _ _ _ _ _ hu hv]
          have hp := ihperm w hw
          rw [upd2_other _ _ _ _ _ (fun hh => hu hh.symm) (fun hh => hv hh.symm)] at hp
          exact hp
    · simp at hcs

theorem mem_allAssignments {C : Type} (pool : List C) :
    ∀ (n : Nat) (cs : List C),
      cs ∈ allAssignments pool n ↔ cs.length = n ∧ ∀ c ∈ cs, c ∈ pool
  | 0, cs => by
    simp only [allAssignments, List.mem_singleton]
    constructor
    · rintro rfl
      simp
    · rintro ⟨hlen, _⟩
      exact List.length_eq_zero.mp hlen
  | n + 1, cs => by
    simp only [allAssignments, List.mem_flatMap, List.mem_map]
    constructor
    · rintro ⟨c, hc, cs2, hcs2, rfl⟩
      obtain ⟨hlen, hmem⟩ := (mem_allAssignments pool n cs2).mp hcs2
      refine ⟨by simp [hlen], ?_⟩
      intro x hx
      rcases List.mem_cons.mp hx with rfl | hx
      · exact hc
      · exact hmem x hx
    · rintro ⟨hlen, hmem⟩
      cases cs with
      | nil => simp at hlen
      | cons c cs2 =>
        refine ⟨c, hmem c (by simp), cs2, ?_, rfl⟩
        exact (mem_allAssignments pool n cs2).mpr
          ⟨by simpa using hlen, fun x hx => hmem x (List.mem_cons_of_mem _ hx)⟩

theorem mem_colorPool_of {V C : Type} [DecidableEq V] [DecidableEq C]
    {vc : List (V × List C)} {w : V} {c : C}
    (hc : c ∈ requiredList vc w) : c ∈ colorPool vc := by
  unfold colorPool
  rw [List.mem_dedup, List.mem_flatMap]
  unfold requiredList dictGet at hc
  cases hf : vc.find? (fun p => decide (p.1 = w)) with
  | none =>
    rw [hf] at hc
    simp at hc
  | some p =>
    rw [hf] at hc
    simp at hc
    exact ⟨p, List.mem_of_find?_eq_some hf, hc⟩

theorem backtrack_colors_mem {V C : Type} [DecidableEq V] [DecidableEq C]
    (deg : V → Nat) (nodes : List V) :
    ∀ (es : List (V × V)) (remaining : V → List C) (placed : V → Nat) (cs : List C),
      cs ∈ backtrack deg nodes es remaining placed →
      (∀ e ∈ es, e.1 ∈ nodes) →
      ∀ c ∈ cs, ∃ w ∈ nodes, c ∈ remaining w
  | [], remaining, placed, cs, hmem, _ => by
    simp only [backtrack] at hmem
    split at hmem
    · have hcs : cs = [] := by simpa using hmem
      subst hcs
      simp
    · simp at hmem
  | (u, v) :: rest, remaining, placed, cs, hmem, hn => by
    simp only [backtrack, List.mem_flatMap] at hmem
    obtain ⟨c, hcpos, hcs⟩ := hmem
    obtain ⟨hcu, _⟩ := (mem_setInter c _ _).mp hcpos
    split at hcs
    · rw [List.mem_map] at hcs
      obtain ⟨cs2, hcs2, rfl⟩ := hcs
      intro x hx
      rcases List.mem_cons.mp hx with rfl | hx
      · exact ⟨u, hn (u, v) (by simp), hcu⟩
      · obtain ⟨w, hw, hxw⟩ := backtrack_colors_mem deg nodes rest _ _ cs2 hcs2
          (fun e he => hn e (List.mem_cons_of_mem _ he)) x hx
        refine ⟨w, hw, ?_⟩
        by_cases hwu : w = u
        · subst hwu
          by_cases hwv : w = v
          · subst hwv
            simp only [upd2, updF_same] at hxw
            exact (List.erase_sublist _ _).subset ((List.erase_sublist _ _).subset hxw)
          · rw [upd2_left _ _ _ _ hwv] at hxw
            exact (List.erase_sublist _ _).subset hxw
        · by_cases hwv : w = v
          · subst hwv
            rw [upd2_right _ _ _ _ (fun hh => hwu hh.symm)] at hxw
            exact (List.erase_sublist _ _).subset hxw
          · rw [upd2_other _ _ _ _ _ hwu hwv] at hxw
            exact hxw
    · simp at hcs

theorem backtrack_complete {V C : Type} [DecidableEq V] [DecidableEq C]
    (deg : V → Nat) (nodes : List V) :
    ∀ (es : List (V × V)) (remaining : V → List C) (placed : V → Nat) (cs : List C),
      (∀ e ∈ es, e.1 ≠ e.2 ∧ e.1 ∈ nodes ∧ e.2 ∈ nodes) →
      (∀ w ∈ nodes, deg w = placed w + incidentCount w es) →
      cs.length = es.length →
      (∀ w ∈ nodes, (incidentColors w (es.zip cs)).Perm (remaining w)) →
      cs ∈ backtrack deg nodes es remaining placed
  | [], remaining, placed, cs, _, _, hlen, hperm => by
    have hcs : cs = [] := List.length_eq_zero.mp hlen
    subst hcs
    simp only [backtrack]
    rw [if_pos]
    · simp
    · apply List.all_eq_true.mpr
      intro w hw
      apply decide_eq_true
      have hp := hperm w hw
      have h0 : incidentColors w ((([] : List (V × V)).zip ([] : List C))) = [] := rfl
      rw [h0] at hp
      exact (hp.symm).eq_nil
  | (u, v) :: rest, remaining, placed, cs, hwf, hdeg, hlen, hperm => by
    have hwfe := hwf (u, v) (by simp)
    have hne : u ≠ v := hwfe.1
    have hun : u ∈ nodes := hwfe.2.1
    have hvn : v ∈ nodes := hwfe.2.2
    cases cs with
    | nil => simp at hlen
    | cons c cs2 =>
      have hlen2 : cs2.length = rest.length := by simpa using hlen
      have hpu := hperm u hun
      rw [List.zip_cons_cons, incidentColors_cons_pos u u v c _ (Or.inl rfl)] at hpu
      have hpv := hperm v hvn
      rw [List.zip_cons_cons, incidentColors_cons_pos v u v c _ (Or.inr rfl)] at hpv
      have hcu : c ∈ remaining u := hpu.subset (List.mem_cons_self _ _)
      have hcv : c ∈ remaining v := hpv.subset (List.mem_cons_self _ _)
      have hXu : (incidentColors u (rest.zip cs2)).Perm ((remaining u).erase c) :=
        (hpu.trans (List.perm_cons_erase hcu)).cons_inv
      have hXv : (incidentColors v (rest.zip cs2)).Perm ((remaining v).erase c) :=
        (hpv.trans (List.perm_cons_erase hcv)).cons_inv
      have hlenru : (remaining u).length = incidentCount u ((u, v) :: rest) := by
        rw [← (hperm u hun).length_eq, List.zip_cons_cons,
          incidentColors_cons_pos u u v c _ (Or.inl rfl)]
        simp [length_incidentColors u rest cs2 hlen2,
          incidentCount_cons_pos u u v rest (Or.inl rfl)]
      have hlenrv : (remaining v).length = incidentCount v ((u, v) :: rest) := by
        rw [← (hperm v hvn).length_eq, List.zip_cons_cons,
          incidentColors_cons_pos v u v c _ (Or.inr rfl)]
        simp [length_incidentColors v rest cs2 hlen2,
          incidentCount_cons_pos v u v rest (Or.inr rfl)]
      have hcntu : incidentCount u ((u, v) :: rest) = incidentCount u rest + 1 :=
        incidentCount_cons_pos u u v rest (Or.inl rfl)
      have hcntv : incidentCount v ((u, v) :: rest) = incidentCount v rest + 1 :=
        incidentCount_cons_pos v u v rest (Or.inr rfl)
      simp only [backtrack, List.mem_flatMap]
      refine ⟨c, (mem_setInter c _ _).mpr ⟨hcu, hcv⟩, ?_⟩
      have hcond : (((upd2 remaining u v (fun s => s.erase c)) u).length : Int) ≤
          (deg u : Int) - ((upd2 placed u v (fun n => n + 1)) u : Int) ∧
          (((upd2 remaining u v (fun s => s.erase c)) v).length : Int) ≤
          (deg v : Int) - ((upd2 placed u v (fun n => n + 1)) v : Int) := by
        rw [upd2_left _ _ _ _ hne, upd2_right _ _ _ _ hne,
          upd2_left _ _ _ _ hne, upd2_right _ _ _ _ hne]
        rw [List.length_erase_of_mem hcu, List.length_erase_of_mem hcv]
        have hdu := hdeg u hun
        have hdv := hdeg v hvn
        rw [hcntu] at hdu hlenru
        rw [hcntv] at hdv hlenrv
        omega
      rw [if_pos hcond, List.mem_map]
      refine ⟨cs2, ?_, rfl⟩
      apply backtrack_complete deg nodes rest _ _ cs2
        (fun e he => hwf e (List.mem_cons_of_mem _ he))
      · intro w hw
        by_cases hwu : w = u
        · subst hwu
          rw [upd2_left _ _ _ _ hne]
          have := hdeg w hw
          rw [hcntu] at this
          omega
        · by_cases hwv : w = v
          · subst hwv
            rw [upd2_right _ _ _ _ hne]
            have := hdeg w hw
            rw [hcntv] at this
            omega
          · rw [upd2_other _ _ _ _ _ hwu hwv]
            have := hdeg w hw
            rw [incidentCount_cons_neg w u v rest (fun hh => hwu hh.symm)
              (fun hh => hwv hh.symm)] at this
            exact this
      · exact hlen2
      · intro w hw
        by_cases hwu : w = u
        · subst hwu
          rw [upd2_left _ _ _ _ hne]
          exact hXu
        · by_cases hwv : w = v
          · subst hwv
            rw [upd2_right _ _ _ _ hne]
            exact hXv
          · rw [upd2_other _ _ _ _ _ hwu hwv]
            have hp := hperm w hw
            rw [List.zip_cons_cons,
              incidentColors_cons_neg w u v c _ (fun hh => hwu hh.symm)
                (fun hh => hwv hh.symm)] at hp
            exact hp

/-! ### Claim theorems -/

/-- C8: the solver is deterministic: two calls on identical inputs (same
graph, same constraint map, hence the same canonical edge order and the
same per-edge color iteration order) return identical output sequences. -/
theorem solver_deterministic {V C : Type} [DecidableEq V] [DecidableEq C]
    (G1 G2 : Graph V) (vc1 vc2 : List (V × List C))
    (hG : G1 = G2) (hvc : vc1 = vc2) :
    all_edge_colorings_with_vertex_constraints G1 vc1 =
      all_edge_colorings_with_vertex_constraints G2 vc2 := by
  rw [hG, hvc]

theorem solver_deterministic_witness :
    ((⟨[0, 1], [(0, 1)]⟩ : Graph Nat) = ⟨[0, 1], [(0, 1)]⟩) ∧
    all_edge_colorings_with_vertex_constraints (⟨[0, 1], [(0, 1)]⟩ : Graph Nat)
        [(0, [5]), (1, [5])] =
      all_edge_colorings_with_vertex_constraints (⟨[0, 1], [(0, 1)]⟩ : Graph Nat)
        [(0, [5]), (1, [5])] :=
  ⟨rfl, solver_deterministic _ _ _ _ rfl rfl⟩

/-- C10: the trade relation applied to a coloring and itself answers true
exactly when the coloring is the empty mapping (any nonempty coloring
shares its first edge color with itself), so the relation is not
irreflexive in general. -/
theorem self_trade_iff_empty {V C : Type} [DecidableEq V] [DecidableEq C]
    (s : Coloring V C) :
    is_colortrade s s = some true ↔ s = [] := by
  cases s with
  | nil => simp [is_colortrade, tradeLoop]
  | cons p rest =>
    obtain ⟨e, c⟩ := p
    simp [is_colortrade, tradeLoop, dictGet, List.find?]

/-- C6: on a graph with zero edges (any vertex set) whose constraint map
assigns the empty color set to every vertex, the solver returns exactly
one coloring, the empty mapping. -/
theorem empty_graph_unique_coloring {V C : Type} [DecidableEq V] [DecidableEq C]
    (G : Graph V) (vc : List (V × List C))
    (hkeys : ∀ x, x ∈ G.nodes ↔ x ∈ vc.map Prod.fst)
    (hedges : G.edges = [])
    (hempty : ∀ p ∈ vc, p.2 = []) :
    all_edge_colorings_with_vertex_constraints G vc = Except.ok [[]] := by
  have hreq : ∀ v : V, requiredList vc v = [] := by
    intro v
    unfold requiredList dictGet
    cases hf2 : vc.find? (fun p => decide (p.1 = v)) with
    | none => simp
    | some p => simp [hempty p (List.mem_of_find?_eq_some hf2)]
  have hdeg : ∀ v, degree G v = 0 := by
    intro v
    unfold degree
    rw [hedges]
    rfl
  have hchk : checkNodes G vc G.nodes = Except.ok () :=
    (checkNodes_ok_iff G vc G.nodes).mpr (by intro v _; simp [hreq, hdeg])
  have hss : sameSet G.nodes (vc.map Prod.fst) = true :=
    (sameSet_eq_true_iff _ _).mpr
      ⟨fun x hx => (hkeys x).mp hx, fun x hx => (hkeys x).mpr hx⟩
  rw [solver_ok_iff]
  refine ⟨hss, hchk, ?_⟩
  rw [hedges]
  have hbt : backtrack (degree G) G.nodes ([] : List (V × V))
      (fun v => (requiredList vc v).dedup) (fun _ => 0) = [[]] := by
    simp [backtrack, List.all_eq_true, hreq]
  rw [hbt]
  simp

theorem empty_graph_unique_coloring_witness :
    ((⟨[7, 8], []⟩ : Graph Nat).edges = []) ∧
    all_edge_colorings_with_vertex_constraints (⟨[7, 8], []⟩ : Graph Nat)
        [(7, ([] : List Nat)), (8, [])] = Except.ok [[]] :=
  ⟨rfl, empty_graph_unique_coloring _ _ (by intro x; simp) rfl (by decide)⟩

/-- C3: the solver errors exactly on the invalid inputs (key set differs
from the vertex set, a duplicated color in some constraint list, or a
vertex degree differing from its constraint set size), the error kind
identifies a violation of that kind, and no error is raised on inputs
satisfying all three conditions; in the Except embedding an error value
carries no partial search result. -/
theorem validation_eager {V C : Type} [DecidableEq V] [DecidableEq C]
    (G : Graph V) (vc : List (V × List C)) :
    ((∃ e, all_edge_colorings_with_vertex_constraints G vc = Except.error e) ↔
      ¬ ((∀ x ∈ G.nodes, x ∈ vc.map Prod.fst) ∧ ∀ x ∈ vc.map Prod.fst, x ∈ G.nodes) ∨
        ∃ v ∈ G.nodes, ¬ (requiredList vc v).Nodup ∨
          degree G v ≠ (requiredList vc v).dedup.length) ∧
    (all_edge_colorings_with_vertex_constraints G vc = Except.error ColorError.vertexSetMismatch →
      ¬ ((∀ x ∈ G.nodes, x ∈ vc.map Prod.fst) ∧ ∀ x ∈ vc.map Prod.fst, x ∈ G.nodes)) ∧
    (∀ v, all_edge_colorings_with_vertex_constraints G vc =
        Except.error (ColorError.duplicateColor v) →
      v ∈ G.nodes ∧ ¬ (requiredList vc v).Nodup) ∧
    (∀ v d k, all_edge_colorings_with_vertex_constraints G vc =
        Except.error (ColorError.degreeMismatch v d k) →
      v ∈ G.nodes ∧ d = degree G v ∧ k = (requiredList vc v).dedup.length ∧ d ≠ k) := by
  have hsame : sameSet G.nodes (vc.map Prod.fst) = false ↔
      ¬ ((∀ x ∈ G.nodes, x ∈ vc.map Prod.fst) ∧ ∀ x ∈ vc.map Prod.fst, x ∈ G.nodes) := by
    rw [← sameSet_eq_true_iff]
    cases sameSet G.nodes (vc.map Prod.fst) <;> simp
  refine ⟨?_, ?_, ?_, ?_⟩
  · constructor
    · rintro ⟨e, he⟩
      unfold all_edge_colorings_with_vertex_constraints at he
      split at he
      · next h => exact Or.inl (hsame.mp h)
      · next h =>
        split at he
        · next e2 he2 =>
          right
          have hne : ¬ checkNodes G vc G.nodes = Except.ok () := by
            rw [he2]
            simp
          rw [checkNodes_ok_iff] at hne
          push_neg at hne
          obtain ⟨v, hv, hcond⟩ := hne
          refine ⟨v, hv, ?_⟩
          by_cases hA : (requiredList vc v).dedup.length = (requiredList vc v).length
          · exact Or.inr (hcond hA)
          · exact Or.inl (fun hnd => hA ((dedup_length_eq_iff _).mpr hnd))
        · simp at he
    · intro h
      by_cases hss : sameSet G.nodes (vc.map Prod.fst) = false
      · refine ⟨ColorError.vertexSetMismatch, ?_⟩
        unfold all_edge_colorings_with_vertex_constraints
        rw [if_pos hss]
      · rcases h with h | ⟨v, hv, hcond⟩
        · exact absurd (hsame.mpr h) hss
        · cases hchk : checkNodes G vc G.nodes with
          | error e =>
            refine ⟨e, ?_⟩
            unfold all_edge_colorings_with_vertex_constraints
            rw [if_neg hss, hchk]
          | ok u =>
            cases u
            exfalso
            have := (checkNodes_ok_iff G vc G.nodes).mp hchk v hv
            rcases hcond with hcond | hcond
            · exact hcond ((dedup_length_eq_iff _).mp this.1)
            · exact hcond this.2
  · intro h
    unfold all_edge_colorings_with_vertex_constraints at h
    split at h
    · next hss => exact hsame.mp hss
    · split at h
      · next e2 he2 =>
        have : e2 = ColorError.vertexSetMismatch := by simpa using h
        rw [this] at he2
        exact absurd he2 (checkNodes_ne_vertexSetMismatch G vc G.nodes)
      · simp at h
  · intro v h
    unfold all_edge_colorings_with_vertex_constraints at h
    split at h
    · simp at h
    · split at h
      · next e2 he2 =>
        have : e2 = ColorError.duplicateColor v := by simpa using h
        rw [this] at he2
        have := checkNodes_error_dup G vc v G.nodes he2
        exact ⟨this.1, fun hnd => this.2 ((dedup_length_eq_iff _).mpr hnd)⟩
      · simp at h
  · intro v d k h
    unfold all_edge_colorings_with_vertex_constraints at h
    split at h
    · simp at h
    · split at h
      · next e2 he2 =>
        have : e2 = ColorError.degreeMismatch v d k := by simpa using h
        rw [this] at he2
        exact checkNodes_error_deg G vc v d k G.nodes he2
      · simp at h

theorem validation_eager_witness :
    ((∃ e, all_edge_colorings_with_vertex_constraints
        (⟨[0, 1, 2], [(0, 1), (1, 2), (0, 2)]⟩ : Graph Nat)
        [(0, [5, 5]), (1, [5, 6]), (2, [5, 6])] = Except.error e) ↔
      ¬ ((∀ x ∈ [0, 1, 2], x ∈ ([(0, [5, 5]), (1, [5, 6]), (2, [5, 6])].map Prod.fst :
            List Nat)) ∧
          ∀ x ∈ ([(0, [5, 5]), (1, [5, 6]), (2, [5, 6])].map Prod.fst : List Nat),
            x ∈ [0, 1, 2]) ∨
        ∃ v ∈ [0, 1, 2],
          ¬ (requiredList [(0, [5, 5]), (1, [5, 6]), (2, [5, 6])] v).Nodup ∨
            degree (⟨[0, 1, 2], [(0, 1), (1, 2), (0, 2)]⟩ : Graph Nat) v ≠
              (requiredList [(0, [5, 5]), (1, [5, 6]), (2, [5, 6])] v).dedup.length) ∧
    (all_edge_colorings_with_vertex_constraints
        (⟨[0, 1, 2], [(0, 1), (1, 2), (0, 2)]⟩ : Graph Nat)
        [(0, [5, 5]), (1, [5, 6]), (2, [5, 6])] = Except.error ColorError.vertexSetMismatch →
      ¬ ((∀ x ∈ [0, 1, 2], x ∈ ([(0, [5, 5]), (1, [5, 6]), (2, [5, 6])].map Prod.fst :
            List Nat)) ∧
          ∀ x ∈ ([(0, [5, 5]), (1, [5, 6]), (2, [5, 6])].map Prod.fst : List Nat),
            x ∈ [0, 1, 2])) ∧
    (∀ v, all_edge_colorings_with_vertex_constraints
        (⟨[0, 1, 2], [(0, 1), (1, 2), (0, 2)]⟩ : Graph Nat)
        [(0, [5, 5]), (1, [5, 6]), (2, [5, 6])] =
        Except.error (ColorError.duplicateColor v) →
      v ∈ [0, 1, 2] ∧ ¬ (requiredList [(0, [5, 5]), (1, [5, 6]), (2, [5, 6])] v).Nodup) ∧
    (∀ v d k, all_edge_colorings_with_vertex_constraints
        (⟨[0, 1, 2], [(0, 1), (1, 2), (0, 2)]⟩ : Graph Nat)
        [(0, [5, 5]), (1, [5, 6]), (2, [5, 6])] =
        Except.error (ColorError.degreeMismatch v d k) →
      v ∈ [0, 1, 2] ∧ d = degree (⟨[0, 1, 2], [(0, 1), (1, 2), (0, 2)]⟩ : Graph Nat) v ∧
        k = (requiredList [(0, [5, 5]), (1, [5, 6]), (2, [5, 6])] v).dedup.length ∧
        d ≠ k) :=
  validation_eager (⟨[0, 1, 2], [(0, 1), (1, 2), (0, 2)]⟩ : Graph Nat)
    [(0, [5, 5]), (1, [5, 6]), (2, [5, 6])]

/-- C5: the trade relation is symmetric on colorings over the same edge
set, and build_trade_graph only ever tests combination pairs (i, j) with
i < j, so the trade graph has no self-loops. -/
theorem trade_symmetric_no_self_loops {V C : Type} [DecidableEq V] [DecidableEq C]
    (s1 s2 : Coloring V C)
    (h1 : (s1.map Prod.fst).Nodup) (h2 : (s2.map Prod.fst).Nodup)
    (hsame : ∀ e, e ∈ s1.map Prod.fst ↔ e ∈ s2.map Prod.fst) :
    is_colortrade s1 s2 = is_colortrade s2 s1 ∧
    ∀ (sols : List (Coloring V C)) (p : Nat × Nat),
      p ∈ (build_trade_graph sols).edges → p.1 ≠ p.2 := by
  refine ⟨is_colortrade_symm_aux s1 s2 h1 h2 hsame, ?_⟩
  intro sols p hp
  have hmem : p ∈ pairsLT sols.length := List.mem_of_mem_filter hp
  obtain ⟨i, j⟩ := p
  exact Nat.ne_of_lt ((mem_pairsLT _ i j).mp hmem).1

theorem trade_symmetric_no_self_loops_witness :
    (([((0, 1), 0)] : Coloring Nat Nat).map Prod.fst).Nodup ∧
    is_colortrade ([((0, 1), 0)] : Coloring Nat Nat) [((0, 1), 1)] =
      is_colortrade ([((0, 1), 1)] : Coloring Nat Nat) [((0, 1), 0)] ∧
    ∀ (sols : List (Coloring Nat Nat)) (p : Nat × Nat),
      p ∈ (build_trade_graph sols).edges → p.1 ≠ p.2 := by
  have h := trade_symmetric_no_self_loops ([((0, 1), 0)] : Coloring Nat Nat) [((0, 1), 1)]
    (by decide) (by decide) (fun e => Iff.rfl)
  exact ⟨by decide, h.1, h.2⟩

/-- C4: build_trade_graph on n colorings over a common edge set has
vertex set exactly 0..n-1, stores each trade as the pair (i, j) with
i < j < n, contains (i, j) exactly when the two colorings differ on
every edge, and maps the empty solution list to the empty graph. -/
theorem trade_graph_correct {V C : Type} [DecidableEq V] [DecidableEq C]
    (sols : List (Coloring V C))
    (hnd : ∀ s ∈ sols, (s.map Prod.fst).Nodup)
    (hsame : ∀ s ∈ sols, ∀ t ∈ sols, ∀ e, e ∈ s.map Prod.fst ↔ e ∈ t.map Prod.fst) :
    (build_trade_graph sols).nodes = List.range sols.length ∧
    (∀ p ∈ (build_trade_graph sols).edges, p.1 < p.2 ∧ p.2 < sols.length) ∧
    (∀ i j, i < j → j < sols.length →
      ((i, j) ∈ (build_trade_graph sols).edges ↔
        ∀ e c1 c2, (e, c1) ∈ sols.getD i [] → (e, c2) ∈ sols.getD j [] → c1 ≠ c2)) ∧
    (build_trade_graph ([] : List (Coloring V C))).nodes = [] ∧
    (build_trade_graph ([] : List (Coloring V C))).edges = [] := by
  refine ⟨rfl, ?_, ?_, rfl, rfl⟩
  · intro p hp
    have hmem : p ∈ pairsLT sols.length := List.mem_of_mem_filter hp
    obtain ⟨i, j⟩ := p
    exact (mem_pairsLT _ i j).mp hmem
  · intro i j hij hj
    have hsi : sols.getD i [] ∈ sols := getD_mem_of_lt _ _ _ (lt_trans hij hj)
    have hsj : sols.getD j [] ∈ sols := getD_mem_of_lt _ _ _ hj
    have hcov : ∀ p ∈ sols.getD i [], p.1 ∈ (sols.getD j []).map Prod.fst :=
      fun p hp => (hsame _ hsi _ hsj p.1).mp (List.mem_map_of_mem Prod.fst hp)
    constructor
    · intro hmem
      have hdec := List.of_mem_filter hmem
      have htrade : is_colortrade (sols.getD i []) (sols.getD j []) = some true :=
        of_decide_eq_true hdec
      exact (is_colortrade_eq_some_true_iff _ _ (hnd _ hsj) hcov).mp htrade
    · intro hdiff
      apply List.mem_filter.mpr
      refine ⟨(mem_pairsLT _ i j).mpr ⟨hij, hj⟩, ?_⟩
      exact decide_eq_true ((is_colortrade_eq_some_true_iff _ _ (hnd _ hsj) hcov).mpr hdiff)

theorem trade_graph_correct_witness :
    (∀ s ∈ ([[((0, 1), 0)], [((0, 1), 1)]] : List (Coloring Nat Nat)),
      (s.map Prod.fst).Nodup) ∧
    (build_trade_graph ([[((0, 1), 0)], [((0, 1), 1)]] : List (Coloring Nat Nat))).nodes =
      List.range ([[((0, 1), 0)], [((0, 1), 1)]] : List (Coloring Nat Nat)).length ∧
    (∀ i j, i < j → j < ([[((0, 1), 0)], [((0, 1), 1)]] : List (Coloring Nat Nat)).length →
      ((i, j) ∈ (build_trade_graph
          ([[((0, 1), 0)], [((0, 1), 1)]] : List (Coloring Nat Nat))).edges ↔
        ∀ e c1 c2,
          (e, c1) ∈ ([[((0, 1), 0)], [((0, 1), 1)]] : List (Coloring Nat Nat)).getD i [] →
          (e, c2) ∈ ([[((0, 1), 0)], [((0, 1), 1)]] : List (Coloring Nat Nat)).getD j [] →
          c1 ≠ c2)) := by
  have h := trade_graph_correct ([[((0, 1), 0)], [((0, 1), 1)]] : List (Coloring Nat Nat))
    (by decide)
    (by
      intro s hs t ht e
      simp only [List.mem_cons, List.not_mem_nil, or_false] at hs ht
      rcases hs with rfl | rfl <;> rcases ht with rfl | rfl <;> rfl)
  exact ⟨by decide, h.1, h.2.2.1⟩

/-- C1: soundness of the solver: for every coloring in the returned list
of a valid instance and every vertex v, the colors on the edges incident
to v are pairwise distinct, are exactly the elements of the required
list vertex_colors[v], and are as many as that list's entries. -/
theorem solver_soundness {V C : Type} [DecidableEq V] [DecidableEq C]
    (G : Graph V) (vc : List (V × List C)) (sols : List (Coloring V C))
    (sol : Coloring V C) (v : V)
    (hok : all_edge_colorings_with_vertex_constraints G vc = Except.ok sols)
    (hwf : ∀ e ∈ G.edges, e.1 ≠ e.2)
    (hsol : sol ∈ sols) (hv : v ∈ G.nodes) :
    (incidentColors v sol).Nodup ∧
    (∀ c, c ∈ incidentColors v sol ↔ c ∈ requiredList vc v) ∧
    (incidentColors v sol).length = (requiredList vc v).length := by
  obtain ⟨hss, hchk, hsols⟩ := (solver_ok_iff G vc sols).mp hok
  subst hsols
  rw [List.mem_map] at hsol
  obtain ⟨cs, hcs, rfl⟩ := hsol
  obtain ⟨hlen, hperm⟩ := backtrack_sound (degree G) G.nodes G.edges _ _ cs hwf hcs
  have hp := hperm v hv
  have hcond := (checkNodes_ok_iff G vc G.nodes).mp hchk v hv
  have hnd_req : (requiredList vc v).Nodup := (dedup_length_eq_iff _).mp hcond.1
  rw [List.dedup_eq_self.mpr hnd_req] at hp
  exact ⟨hp.nodup_iff.mpr hnd_req, fun c => hp.mem_iff, hp.length_eq⟩

theorem solver_soundness_witness :
    (all_edge_colorings_with_vertex_constraints (⟨[0, 1], [(0, 1)]⟩ : Graph Nat)
        [(0, [5]), (1, [5])] = Except.ok [[((0, 1), 5)]]) ∧
    ((incidentColors 0 ([((0, 1), 5)] : Coloring Nat Nat)).Nodup ∧
      (∀ c, c ∈ incidentColors 0 ([((0, 1), 5)] : Coloring Nat Nat) ↔
        c ∈ requiredList [(0, [5]), (1, [5])] 0) ∧
      (incidentColors 0 ([((0, 1), 5)] : Coloring Nat Nat)).length =
        (requiredList [(0, [5]), (1, [5])] 0).length) :=
  ⟨by rfl, solver_soundness (⟨[0, 1], [(0, 1)]⟩ : Graph Nat) [(0, [5]), (1, [5])]
    [[((0, 1), 5)]] [((0, 1), 5)] 0 (by rfl) (by decide) (by decide) (by decide)⟩

/-- C2: completeness of the solver: on a valid instance the returned
list contains, as a set, exactly the colorings produced by naively
enumerating every assignment of pool colors to edges and filtering by
the per-vertex exact-set constraint; in particular the forward-check
prune never loses a valid coloring. -/
theorem solver_matches_naive {V C : Type} [DecidableEq V] [DecidableEq C]
    (G : Graph V) (vc : List (V × List C)) (sols : List (Coloring V C))
    (hok : all_edge_colorings_with_vertex_constraints G vc = Except.ok sols)
    (hwf : ∀ e ∈ G.edges, e.1 ≠ e.2 ∧ e.1 ∈ G.nodes ∧ e.2 ∈ G.nodes) :
    ∀ sol, sol ∈ sols ↔ sol ∈ naiveAllColorings G vc := by
  obtain ⟨hss, hchk, hsols⟩ := (solver_ok_iff G vc sols).mp hok
  have hwf1 : ∀ e ∈ G.edges, e.1 ≠ e.2 := fun e he => (hwf e he).1
  have hchk2 := (checkNodes_ok_iff G vc G.nodes).mp hchk
  subst hsols
  intro sol
  constructor
  · intro hsol
    rw [List.mem_map] at hsol
    obtain ⟨cs, hcs, rfl⟩ := hsol
    obtain ⟨hlen, hperm⟩ := backtrack_sound (degree G) G.nodes G.edges _ _ cs hwf1 hcs
    apply List.mem_filter.mpr
    constructor
    · apply List.mem_map.mpr
      refine ⟨cs, (mem_allAssignments _ _ _).mpr ⟨hlen, ?_⟩, rfl⟩
      intro c hc
      obtain ⟨w, _, hcw⟩ := backtrack_colors_mem (degree G) G.nodes G.edges _ _ cs hcs
        (fun e he => (hwf e he).2.1) c hc
      exact mem_colorPool_of (List.mem_dedup.mp hcw)
    · unfold isValidColoring
      apply List.all_eq_true.mpr
      intro w hw
      have hp := hperm w hw
      have hnd_req : (requiredList vc w).Nodup := (dedup_length_eq_iff _).mp (hchk2 w hw).1
      rw [List.dedup_eq_self.mpr hnd_req] at hp
      simp only [Bool.and_eq_true, decide_eq_true_eq, List.all_eq_true]
      exact ⟨⟨hp.nodup_iff.mpr hnd_req, fun c hc => hp.subset hc⟩,
        fun c hc => hp.mem_iff.mpr hc⟩
  · intro hnaive
    rw [naiveAllColorings, List.mem_filter] at hnaive
    obtain ⟨hmem, hvalid⟩ := hnaive
    rw [List.mem_map] at hmem
    obtain ⟨cs, hcs, rfl⟩ := hmem
    obtain ⟨hlen, _⟩ := (mem_allAssignments _ _ _).mp hcs
    apply List.mem_map.mpr
    refine ⟨cs, ?_, rfl⟩
    apply backtrack_complete (degree G) G.nodes G.edges _ _ cs hwf ?_ hlen ?_
    · intro w hw
      rw [degree_eq_incidentCount G hwf1 w]
      omega
    · intro w hw
      unfold isValidColoring at hvalid
      have hval := List.all_eq_true.mp hvalid w hw
      simp only [Bool.and_eq_true, decide_eq_true_eq, List.all_eq_true] at hval
      obtain ⟨⟨hnodup, hsub1⟩, hsub2⟩ := hval
      have hnd_req : (requiredList vc w).Nodup := (dedup_length_eq_iff _).mp (hchk2 w hw).1
      rw [List.dedup_eq_self.mpr hnd_req]
      apply (List.perm_ext_iff_of_nodup hnodup hnd_req).mpr
      intro a
      exact ⟨fun h => hsub1 a h, fun h => hsub2 a h⟩

theorem solver_matches_naive_witness :
    (all_edge_colorings_with_vertex_constraints (⟨[0, 1], [(0, 1)]⟩ : Graph Nat)
        [(0, [5]), (1, [5])] = Except.ok [[((0, 1), 5)]]) ∧
    (∀ sol, sol ∈ ([[((0, 1), 5)]] : List (Coloring Nat Nat)) ↔
      sol ∈ naiveAllColorings (⟨[0, 1], [(0, 1)]⟩ : Graph Nat) [(0, [5]), (1, [5])]) :=
  ⟨by rfl, solver_matches_naive (⟨[0, 1], [(0, 1)]⟩ : Graph Nat) [(0, [5]), (1, [5])]
    [[((0, 1), 5)]] (by rfl) (by decide)⟩

theorem backtrack_eq_nocheck {V C : Type} [DecidableEq V] [DecidableEq C]
    (deg : V → Nat) (nodes : List V) :
    ∀ (es : List (V × V)) (remaining : V → List C) (placed : V → Nat),
      (∀ e ∈ es, e.1 ≠ e.2 ∧ e.1 ∈ nodes ∧ e.2 ∈ nodes) →
      (∀ w ∈ nodes, deg w = placed w + incidentCount w es) →
      (∀ w ∈ nodes, (remaining w).length ≤ incidentCount w es) →
      backtrack deg nodes es remaining placed = backtrackNC deg nodes es remaining placed
  | [], remaining, placed, _, _, hlen => by
    simp only [backtrack, backtrackNC]
    rw [if_pos]
    apply List.all_eq_true.mpr
    intro w hw
    apply decide_eq_true
    have hw0 := hlen w hw
    have h0 : incidentCount w ([] : List (V × V)) = 0 := rfl
    rw [h0] at hw0
    exact List.eq_nil_of_length_eq_zero (Nat.le_zero.mp hw0)
  | (u, v) :: rest, remaining, placed, hwf, hdeg, hlen => by
    have hwfe := hwf (u, v) (by simp)
    have hne : u ≠ v := hwfe.1
    have hun : u ∈ nodes := hwfe.2.1
    have hvn : v ∈ nodes := hwfe.2.2
    simp only [backtrack, backtrackNC]
    apply List.flatMap_congr
    intro c hc
    obtain ⟨hcu, hcv⟩ := (mem_setInter c _ _).mp hc
    by_cases hcond :
        ((upd2 remaining u v (fun s => s.erase c) u).length : Int) ≤
            (deg u : Int) - ((upd2 placed u v (fun n => n + 1) u : Nat) : Int) ∧
        ((upd2 remaining u v (fun s => s.erase c) v).length : Int) ≤
            (deg v : Int) - ((upd2 placed u v (fun n => n + 1) v : Nat) : Int)
    · rw [if_pos hcond, if_pos hcond]
      rw [backtrack_eq_nocheck deg nodes rest _ _
        (fun e he => hwf e (List.mem_cons_of_mem _ he)) ?_ ?_]
      · intro w hw
        by_cases hwu : w = u
        · subst hwu
          rw [upd2_left _ _ _ _ hne]
          have hd := hdeg w hw
          rw [incidentCount_cons_pos w w v rest (Or.inl rfl)] at hd
          omega
        · by_cases hwv : w = v
          · subst hwv
            rw [upd2_right _ _ _ _ hne]
            have hd := hdeg w hw
            rw [incidentCount_cons_pos w u w rest (Or.inr rfl)] at hd
            omega
          · rw [upd2_other _ _ _ _ _ hwu hwv]
            have hd := hdeg w hw
            rw [incidentCount_cons_neg w u v rest (fun hh => hwu hh.symm)
              (fun hh => hwv hh.symm)] at hd
            exact hd
      · intro w hw
        by_cases hwu : w = u
        · subst hwu
          have h1 := hcond.1
          rw [upd2_left _ _ _ _ hne] at h1 ⊢
          rw [upd2_left _ _ _ _ hne] at h1
          have hd := hdeg w hw
          rw [incidentCount_cons_pos w w v rest (Or.inl rfl)] at hd
          omega
        · by_cases hwv : w = v
          · subst hwv
            have h1 := hcond.2
            rw [upd2_right _ _ _ _ hne] at h1 ⊢
            rw [upd2_right _ _ _ _ hne] at h1
            have hd := hdeg w hw
            rw [incidentCount_cons_pos w u w rest (Or.inr rfl)] at hd
            omega
          · rw [upd2_other _ _ _ _ _ hwu hwv]
            have hd := hlen w hw
            rw [incidentCount_cons_neg w u v rest (fun hh => hwu hh.symm)
              (fun hh => hwv hh.symm)] at hd
            exact hd
    · rw [if_neg hcond, if_neg hcond]

/-- C7: the defensive final all-remaining-empty guard is redundant on
every valid instance: the solver returns the same value as the variant
whose base case records every completed assignment unconditionally, so
the guard never rejects a completed assignment. -/
theorem final_check_redundant {V C : Type} [DecidableEq V] [DecidableEq C]
    (G : Graph V) (vc : List (V × List C))
    (hwf : ∀ e ∈ G.edges, e.1 ≠ e.2 ∧ e.1 ∈ G.nodes ∧ e.2 ∈ G.nodes) :
    all_edge_colorings_with_vertex_constraints G vc = all_edge_colorings_nocheck G vc := by
  unfold all_edge_colorings_with_vertex_constraints all_edge_colorings_nocheck
  by_cases hss : sameSet G.nodes (vc.map Prod.fst) = false
  · rw [if_pos hss, if_pos hss]
  · rw [if_neg hss, if_neg hss]
    cases hchk : checkNodes G vc G.nodes with
    | error e => rfl
    | ok u =>
      cases u
      have hfacts := (checkNodes_ok_iff G vc G.nodes).mp hchk
      have hwf1 : ∀ e ∈ G.edges, e.1 ≠ e.2 := fun e he => (hwf e he).1
      have hbt := backtrack_eq_nocheck (degree G) G.nodes G.edges
        (fun v => (requiredList vc v).dedup) (fun _ => 0) hwf
        (by
          intro w hw
          rw [degree_eq_incidentCount G hwf1 w]
          show incidentCount w G.edges = 0 + incidentCount w G.edges
          omega)
        (by
          intro w hw
          show ((requiredList vc w).dedup).length ≤ incidentCount w G.edges
          rw [← degree_eq_incidentCount G hwf1 w, (hfacts w hw).2])
      rw [hbt]

theorem final_check_redundant_witness :
    (∀ e ∈ (⟨[0, 1], [(0, 1)]⟩ : Graph Nat).edges,
      e.1 ≠ e.2 ∧ e.1 ∈ [0, 1] ∧ e.2 ∈ [0, 1]) ∧
    all_edge_colorings_with_vertex_constraints (⟨[0, 1], [(0, 1)]⟩ : Graph Nat)
        [(0, [5]), (1, [5])] =
      all_edge_colorings_nocheck (⟨[0, 1], [(0, 1)]⟩ : Graph Nat) [(0, [5]), (1, [5])] :=
  ⟨by decide, final_check_redundant _ _ (by decide)⟩

theorem dictInsert_of_fresh {K A : Type} [DecidableEq K] (m : List (K × A)) (k : K) (a : A)
    (hf : k ∉ m.map Prod.fst) : dictInsert m k a = m ++ [(k, a)] := by
  have hnone : m.find? (fun p => decide (p.1 = k)) = none := by
    apply List.find?_eq_none.mpr
    intro p hp
    simp only [decide_eq_true_eq]
    intro hk
    exact hf (hk ▸ List.mem_map_of_mem Prod.fst hp)
  simp [dictInsert, hnone]

theorem dictRemove_append_fresh {K A : Type} [DecidableEq K] (m : List (K × A)) (k : K)
    (a : A) (hf : k ∉ m.map Prod.fst) : dictRemove (m ++ [(k, a)]) k = m := by
  unfold dictRemove
  rw [List.filter_append]
  have h1 : m.filter (fun p => decide (p.1 ≠ k)) = m := by
    apply List.filter_eq_self.mpr
    intro p hp
    simp only [decide_eq_true_eq]
    intro hk
    exact hf (hk ▸ List.mem_map_of_mem Prod.fst hp)
  rw [h1]
  have h2 : [(k, a)].filter (fun p => decide (p.1 ≠ k)) = [] := by simp
  rw [h2, List.append_nil]

theorem erase_insert_self {C : Type} [DecidableEq C] (l : List C) (c : C)
    (h : c ∉ l) : (l.insert c).erase c = l := by
  rw [List.insert_of_not_mem h, List.erase_cons_head]

theorem insert_erase_perm {C : Type} [DecidableEq C] (l : List C) (c : C)
    (hmem : c ∈ l) (hnd : l.Nodup) : ((l.erase c).insert c).Perm l := by
  have hnm : c ∉ l.erase c := fun hh => ((hnd.mem_erase_iff).mp hh).1 rfl
  rw [List.insert_of_not_mem hnm]
  exact (List.perm_cons_erase hmem).symm

theorem undo_after_assign {V C : Type} [DecidableEq V] [DecidableEq C]
    (st st2 : SearchState V C) (u v : V) (c : C)
    (hne : u ≠ v)
    (hcu : c ∈ st.remaining u) (hcv : c ∈ st.remaining v)
    (hndu : (st.remaining u).Nodup) (hndv : (st.remaining v).Nodup)
    (huu : c ∉ st.used u) (huv : c ∉ st.used v)
    (hfresh : (u, v) ∉ st.edgeColors.map Prod.fst)
    (hplaced : ∀ w, st2.placed w = (assignEdge st u v c).placed w)
    (hused : ∀ w, st2.used w = (assignEdge st u v c).used w)
    (hec : st2.edgeColors = (assignEdge st u v c).edgeColors)
    (hrem : ∀ w, (st2.remaining w).Perm ((assignEdge st u v c).remaining w)) :
    (∀ w, (undoEdge st2 u v c).placed w = st.placed w) ∧
    (∀ w, (undoEdge st2 u v c).used w = st.used w) ∧
    (∀ w, ((undoEdge st2 u v c).remaining w).Perm (st.remaining w)) ∧
    (undoEdge st2 u v c).edgeColors = st.edgeColors := by
  refine ⟨?_, ?_, ?_, ?_⟩
  · intro w
    show upd2 st2.placed u v (fun n => n - 1) w = st.placed w
    by_cases hwu : w = u
    · subst hwu
      rw [upd2_left _ _ _ _ hne, hplaced w]
      show (upd2 st.placed w v (fun n => n + 1) w) - 1 = st.placed w
      rw [upd2_left _ _ _ _ hne]
      omega
    · by_cases hwv : w = v
      · subst hwv
        rw [upd2_right _ _ _ _ hne, hplaced w]
        show (upd2 st.placed u w (fun n => n + 1) w) - 1 = st.placed w
        rw [upd2_right _ _ _ _ hne]
        omega
      · rw [upd2_other _ _ _ _ _ hwu hwv, hplaced w]
        show upd2 st.placed u v (fun n => n + 1) w = st.placed w
        rw [upd2_other _ _ _ _ _ hwu hwv]
  · intro w
    show (upd2 st2.used u v (fun s => s.erase c)) w = st.used w
    by_cases hwu : w = u
    · subst hwu
      rw [upd2_left _ _ _ _ hne, hused w]
      show ((upd2 st.used w v (fun s => s.insert c)) w).erase c = st.used w
      rw [upd2_left _ _ _ _ hne]
      exact erase_insert_self _ _ huu
    · by_cases hwv : w = v
      · subst hwv
        rw [upd2_right _ _ _ _ hne, hused w]
        show ((upd2 st.used u w (fun s => s.insert c)) w).erase c = st.used w
        rw [upd2_right _ _ _ _ hne]
        exact erase_insert_self _ _ huv
      · rw [upd2_other _ _ _ _ _ hwu hwv, hused w]
        show upd2 st.used u v (fun s => s.insert c) w = st.used w
        rw [upd2_other _ _ _ _ _ hwu hwv]
  · intro w
    show ((upd2 st2.remaining u v (fun s => s.insert c)) w).Perm (st.remaining w)
    by_cases hwu : w = u
    · subst hwu
      rw [upd2_left _ _ _ _ hne]
      have hp := hrem w
      have ha : (assignEdge st w v c).remaining w = (st.remaining w).erase c := by
        show upd2 st.remaining w v (fun s => s.erase c) w = (st.remaining w).erase c
        rw [upd2_left _ _ _ _ hne]
      rw [ha] at hp
      have hnm : c ∉ st2.remaining w :=
        fun hh => ((hndu.mem_erase_iff).mp (hp.subset hh)).1 rfl
      rw [List.insert_of_not_mem hnm]
      exact (hp.cons c).trans (List.perm_cons_erase hcu).symm
    · by_cases hwv : w = v
      · subst hwv
        rw [upd2_right _ _ _ _ hne]
        have hp := hrem w
        have ha : (assignEdge st u w c).remaining w = (st.remaining w).erase c := by
          show upd2 st.remaining u w (fun s => s.erase c) w = (st.remaining w).erase c
          rw [upd2_right _ _ _ _ hne]
        rw [ha] at hp
        have hnm : c ∉ st2.remaining w :=
          fun hh => ((hndv.mem_erase_iff).mp (hp.subset hh)).1 rfl
        rw [List.insert_of_not_mem hnm]
        exact (hp.cons c).trans (List.perm_cons_erase hcv).symm
      · rw [upd2_other _ _ _ _ _ hwu hwv]
        have hp := hrem w
        have ha : (assignEdge st u v c).remaining w = st.remaining w := by
          show upd2 st.remaining u v (fun s => s.erase c) w = st.remaining w
          rw [upd2_other _ _ _ _ _ hwu hwv]
        rw [ha] at hp
        exact hp
  · show dictRemove st2.edgeColors (u, v) = st.edgeColors
    rw [hec]
    show dictRemove (dictInsert st.edgeColors (u, v) c) (u, v) = st.edgeColors
    rw [dictInsert_of_fresh _ _ _ hfresh, dictRemove_append_fresh _ _ _ hfresh]

theorem foldl_preserve {α β : Type} (g : β → α → β) (P : β → Prop) :
    ∀ l : List α, (∀ a ∈ l, ∀ b, P b → P (g b a)) → ∀ b, P b → P (l.foldl g b)
  | [], _, _, hb => hb
  | a :: l, hstep, b, hb =>
    foldl_preserve g P l (fun x hx => hstep x (List.mem_cons_of_mem _ hx)) (g b a)
      (hstep a (by simp) b hb)

theorem backtrackS_sols_extend {V C : Type} [DecidableEq V] [DecidableEq C]
    (deg : V → Nat) (nodes : List V) :
    ∀ (es : List (V × V)) (p : SearchState V C × List (Coloring V C)),
      ∃ t, (backtrackS deg nodes es p).2 = p.2 ++ t
  | [], p => by
    simp only [backtrackS]
    split
    · exact ⟨[p.1.edgeColors], rfl⟩
    · exact ⟨[], by simp⟩
  | (u, v) :: rest, p => by
    simp only [backtrackS]
    refine foldl_preserve _ (fun q => ∃ t, q.2 = p.2 ++ t) _ ?_ p ⟨[], by simp⟩
    intro c hc q hq
    obtain ⟨t, ht⟩ := hq
    dsimp only
    split
    · obtain ⟨t2, ht2⟩ := backtrackS_sols_extend deg nodes rest (assignEdge q.1 u v c, q.2)
      exact ⟨t ++ t2, by rw [ht2, ht, List.append_assoc]⟩
    · exact ⟨t, ht⟩

theorem backtrackS_restores {V C : Type} [DecidableEq V] [DecidableEq C]
    (deg : V → Nat) (nodes : List V) :
    ∀ (es : List (V × V)) (st : SearchState V C) (sols : List (Coloring V C)),
      (∀ e ∈ es, e.1 ≠ e.2) →
      es.Nodup →
      (∀ e ∈ es, e ∉ st.edgeColors.map Prod.fst) →
      (∀ w, (st.remaining w).Nodup) →
      (∀ w c2, c2 ∈ st.remaining w → c2 ∉ st.used w) →
      (∀ w, (backtrackS deg nodes es (st, sols)).1.placed w = st.placed w) ∧
      (∀ w, (backtrackS deg nodes es (st, sols)).1.used w = st.used w) ∧
      (∀ w, ((backtrackS deg nodes es (st, sols)).1.remaining w).Perm (st.remaining w)) ∧
      (backtrackS deg nodes es (st, sols)).1.edgeColors = st.edgeColors
  | [], st, sols, _, _, _, _, _ => by
    simp only [backtrackS]
    split <;> exact ⟨fun w => rfl, fun w => rfl, fun w => List.Perm.refl _, rfl⟩
  | (u, v) :: rest, st, sols, hwf, hnd_es, hfresh, hndr, hdisj => by
    have hne : u ≠ v := hwf (u, v) (by simp)
    simp only [backtrackS]
    refine foldl_preserve _
      (fun q => (∀ w, q.1.placed w = st.placed w) ∧ (∀ w, q.1.used w = st.used w) ∧
        (∀ w, (q.1.remaining w).Perm (st.remaining w)) ∧ q.1.edgeColors = st.edgeColors)
      _ ?_ (st, sols) ⟨fun w => rfl, fun w => rfl, fun w => List.Perm.refl _, rfl⟩
    intro c hc q hq
    obtain ⟨hqp, hqu, hqr, hqe⟩ := hq
    obtain ⟨hcu, hcv⟩ := (mem_setInter c _ _).mp hc
    have hcu_q : c ∈ q.1.remaining u := (hqr u).mem_iff.mpr hcu
    have hcv_q : c ∈ q.1.remaining v := (hqr v).mem_iff.mpr hcv
    have hndq : ∀ w, (q.1.remaining w).Nodup := fun w => (hqr w).nodup_iff.mpr (hndr w)
    have hdisjq : ∀ w c2, c2 ∈ q.1.remaining w → c2 ∉ q.1.used w := by
      intro w c2 hmem
      rw [hqu w]
      exact hdisj w c2 ((hqr w).subset hmem)
    have hfq : (u, v) ∉ q.1.edgeColors.map Prod.fst := by
      rw [hqe]
      exact hfresh (u, v) (by simp)
    have hnd1 : ∀ w, ((assignEdge q.1 u v c).remaining w).Nodup := by
      intro w
      show (upd2 q.1.remaining u v (fun s => s.erase c) w).Nodup
      by_cases hwu : w = u
      · subst hwu
        rw [upd2_left _ _ _ _ hne]
        exact (hndq w).erase c
      · by_cases hwv : w = v
        · subst hwv
          rw [upd2_right _ _ _ _ hne]
          exact (hndq w).erase c
        · rw [upd2_other _ _ _ _ _ hwu hwv]
          exact hndq w
    have hdisj1 : ∀ w c2, c2 ∈ (assignEdge q.1 u v c).remaining w →
        c2 ∉ (assignEdge q.1 u v c).used w := by
      intro w c2 hmem
      show c2 ∉ upd2 q.1.used u v (fun s => s.insert c) w
      have hmem2 : c2 ∈ upd2 q.1.remaining u v (fun s => s.erase c) w := hmem
      by_cases hwu : w = u
      · subst hwu
        rw [upd2_left _ _ _ _ hne] at hmem2
        rw [upd2_left _ _ _ _ hne, List.insert_of_not_mem (hdisjq w c hcu_q)]
        have h1 : c2 ≠ c := fun hh => ((hndq w).mem_erase_iff.mp hmem2).1 hh
        have h2 : c2 ∉ q.1.used w :=
          hdisjq w c2 (((hndq w).mem_erase_iff.mp hmem2).2)
        simp [h1, h2]
      · by_cases hwv : w = v
        · subst hwv
          rw [upd2_right _ _ _ _ hne] at hmem2
          rw [upd2_right _ _ _ _ hne, List.insert_of_not_mem (hdisjq w c hcv_q)]
          have h1 : c2 ≠ c := fun hh => ((hndq w).mem_erase_iff.mp hmem2).1 hh
          have h2 : c2 ∉ q.1.used w :=
            hdisjq w c2 (((hndq w).mem_erase_iff.mp hmem2).2)
          simp [h1, h2]
        · rw [upd2_other _ _ _ _ _ hwu hwv] at hmem2
          rw [upd2_other _ _ _ _ _ hwu hwv]
          exact hdisjq w c2 hmem2
    have hfresh1 : ∀ e ∈ rest, e ∉ ((assignEdge q.1 u v c).edgeColors).map Prod.fst := by
      intro e he
      show e ∉ (dictInsert q.1.edgeColors (u, v) c).map Prod.fst
      rw [dictInsert_of_fresh _ _ _ hfq, List.map_append, List.mem_append]
      rintro (h | h)
      · exact hfresh e (List.mem_cons_of_mem _ he) (hqe ▸ h)
      · have he2 : e = (u, v) := by simpa using h
        subst he2
        exact (List.nodup_cons.mp hnd_es).1 he
    dsimp only
    by_cases hcond :
        (((assignEdge q.1 u v c).remaining u).length : Int) ≤
            (deg u : Int) - ((assignEdge q.1 u v c).placed u : Int) ∧
        (((assignEdge q.1 u v c).remaining v).length : Int) ≤
            (deg v : Int) - ((assignEdge q.1 u v c).placed v : Int)
    · rw [if_pos hcond]
      obtain ⟨hrp, hru, hrr, hre⟩ := backtrackS_restores deg nodes rest
        (assignEdge q.1 u v c) q.2 (fun e he => hwf e (List.mem_cons_of_mem _ he))
        (List.Nodup.of_cons hnd_es) hfresh1 hnd1 hdisj1
      obtain ⟨hp, hu2, hr, he⟩ := undo_after_assign q.1 _ u v c hne hcu_q hcv_q
        (hndq u) (hndq v) (hdisjq u c hcu_q) (hdisjq v c hcv_q) hfq hrp hru hre hrr
      exact ⟨fun w => (hp w).trans (hqp w), fun w => (hu2 w).trans (hqu w),
        fun w => (hr w).trans (hqr w), he.trans hqe⟩
    · rw [if_neg hcond]
      obtain ⟨hp, hu2, hr, he⟩ := undo_after_assign q.1 (assignEdge q.1 u v c) u v c hne
        hcu_q hcv_q (hndq u) (hndq v) (hdisjq u c hcu_q) (hdisjq v c hcv_q) hfq
        (fun w => rfl) (fun w => rfl) rfl (fun w => List.Perm.refl _)
      exact ⟨fun w => (hp w).trans (hqp w), fun w => (hu2 w).trans (hqu w),
        fun w => (hr w).trans (hqr w), he.trans hqe⟩

/-- C9: frame and effect of one candidate iteration, and value-copy
recording: after a candidate color is tried (tentative assignment,
forward check, possible recursion, undo), placed, used and the partial
edge-color dict hold exactly their pre-assignment values and every
remaining set holds the same set value (Python sets compare by
contents); and the solutions list only ever grows by appending value
copies, so each recorded coloring is unchanged by every later search
step. -/
theorem copies_and_restore {V C : Type} [DecidableEq V] [DecidableEq C]
    (deg : V → Nat) (nodes : List V) (rest : List (V × V))
    (st : SearchState V C) (sols : List (Coloring V C)) (u v : V) (c : C)
    (q2 : SearchState V C × List (Coloring V C))
    (hne : u ≠ v) (hcu : c ∈ st.remaining u) (hcv : c ∈ st.remaining v)
    (hnd : ∀ w, (st.remaining w).Nodup)
    (hdisj : ∀ w c2, c2 ∈ st.remaining w → c2 ∉ st.used w)
    (hwf : ∀ e ∈ rest, e.1 ≠ e.2)
    (hrest : rest.Nodup)
    (hfresh : ∀ e ∈ rest, e ∉ st.edgeColors.map Prod.fst)
    (hfuv : (u, v) ∉ st.edgeColors.map Prod.fst)
    (huv_rest : (u, v) ∉ rest)
    (hq2 : q2 =
      if (((assignEdge st u v c).remaining u).length : Int) ≤
            (deg u : Int) - ((assignEdge st u v c).placed u : Int) ∧
          (((assignEdge st u v c).remaining v).length : Int) ≤
            (deg v : Int) - ((assignEdge st u v c).placed v : Int) then
        backtrackS deg nodes rest (assignEdge st u v c, sols)
      else (assignEdge st u v c, sols)) :
    (∀ w, (undoEdge q2.1 u v c).placed w = st.placed w) ∧
    (∀ w, (undoEdge q2.1 u v c).used w = st.used w) ∧
    (∀ w, ((undoEdge q2.1 u v c).remaining w).Perm (st.remaining w)) ∧
    (undoEdge q2.1 u v c).edgeColors = st.edgeColors ∧
    (∀ (es2 : List (V × V)) (p : SearchState V C × List (Coloring V C)),
      ∃ t, (backtrackS deg nodes es2 p).2 = p.2 ++ t) := by
  have hnd1 : ∀ w, ((assignEdge st u v c).remaining w).Nodup := by
    intro w
    show (upd2 st.remaining u v (fun s => s.erase c) w).Nodup
    by_cases hwu : w = u
    · subst hwu
      rw [upd2_left _ _ _ _ hne]
      exact (hnd w).erase c
    · by_cases hwv : w = v
      · subst hwv
        rw [upd2_right _ _ _ _ hne]
        exact (hnd w).erase c
      · rw [upd2_other _ _ _ _ _ hwu hwv]
        exact hnd w
  have hdisj1 : ∀ w c2, c2 ∈ (assignEdge st u v c).remaining w →
      c2 ∉ (assignEdge st u v c).used w := by
    intro w c2 hmem
    show c2 ∉ upd2 st.used u v (fun s => s.insert c) w
    have hmem2 : c2 ∈ upd2 st.remaining u v (fun s => s.erase c) w := hmem
    by_cases hwu : w = u
    · subst hwu
      rw [upd2_left _ _ _ _ hne] at hmem2
      rw [upd2_left _ _ _ _ hne, List.insert_of_not_mem (hdisj w c hcu)]
      have h1 : c2 ≠ c := fun hh => ((hnd w).mem_erase_iff.mp hmem2).1 hh
      have h2 : c2 ∉ st.used w := hdisj w c2 (((hnd w).mem_erase_iff.mp hmem2).2)
      simp [h1, h2]
    · by_cases hwv : w = v
      · subst hwv
        rw [upd2_right _ _ _ _ hne] at hmem2
        rw [upd2_right _ _ _ _ hne, List.insert_of_not_mem (hdisj w c hcv)]
        have h1 : c2 ≠ c := fun hh => ((hnd w).mem_erase_iff.mp hmem2).1 hh
        have h2 : c2 ∉ st.used w := hdisj w c2 (((hnd w).mem_erase_iff.mp hmem2).2)
        simp [h1, h2]
      · rw [upd2_other _ _ _ _ _ hwu hwv] at hmem2
        rw [upd2_other _ _ _ _ _ hwu hwv]
        exact hdisj w c2 hmem2
  have hfresh1 : ∀ e ∈ rest, e ∉ ((assignEdge st u v c).edgeColors).map Prod.fst := by
    intro e he
    show e ∉ (dictInsert st.edgeColors (u, v) c).map Prod.fst
    rw [dictInsert_of_fresh _ _ _ hfuv, List.map_append, List.mem_append]
    rintro (h | h)
    · exact hfresh e he h
    · have he2 : e = (u, v) := by simpa using h
      subst he2
      exact huv_rest he
  subst hq2
  by_cases hcond :
      (((assignEdge st u v c).remaining u).length : Int) ≤
          (deg u : Int) - ((assignEdge st u v c).placed u : Int) ∧
      (((assignEdge st u v c).remaining v).length : Int) ≤
          (deg v : Int) - ((assignEdge st u v c).placed v : Int)
  · rw [if_pos hcond]
    obtain ⟨hrp, hru, hrr, hre⟩ := backtrackS_restores deg nodes rest
      (assignEdge st u v c) sols hwf hrest hfresh1 hnd1 hdisj1
    obtain ⟨h1, h2, h3, h4⟩ := undo_after_assign st _ u v c hne hcu hcv (hnd u) (hnd v)
      (hdisj u c hcu) (hdisj v c hcv) hfuv hrp hru hre hrr
    exact ⟨h1, h2, h3, h4, backtrackS_sols_extend deg nodes⟩
  · rw [if_neg hcond]
    obtain ⟨h1, h2, h3, h4⟩ := undo_after_assign st (assignEdge st u v c) u v c hne
      hcu hcv (hnd u) (hnd v) (hdisj u c hcu) (hdisj v c hcv) hfuv
      (fun w => rfl) (fun w => rfl) rfl (fun w => List.Perm.refl _)
    exact ⟨h1, h2, h3, h4, backtrackS_sols_extend deg nodes⟩

theorem copies_and_restore_witness :
    ((0 : Nat) ≠ 1 ∧
      (0 : Nat) ∈ (⟨fun _ => [0, 1], fun _ => [], fun _ => 0, []⟩ :
        SearchState Nat Nat).remaining 0) ∧
    ((∀ w, (undoEdge (assignEdge (⟨fun _ => [0, 1], fun _ => [], fun _ => 0, []⟩ :
          SearchState Nat Nat) 0 1 0) 0 1 0).placed w =
        (⟨fun _ => [0, 1], fun _ => [], fun _ => 0, []⟩ :
          SearchState Nat Nat).placed w) ∧
      (∀ w, (undoEdge (assignEdge (⟨fun _ => [0, 1], fun _ => [], fun _ => 0, []⟩ :
          SearchState Nat Nat) 0 1 0) 0 1 0).used w =
        (⟨fun _ => [0, 1], fun _ => [], fun _ => 0, []⟩ :
          SearchState Nat Nat).used w) ∧
      (∀ w, ((undoEdge (assignEdge (⟨fun _ => [0, 1], fun _ => [], fun _ => 0, []⟩ :
          SearchState Nat Nat) 0 1 0) 0 1 0).remaining w).Perm
        ((⟨fun _ => [0, 1], fun _ => [], fun _ => 0, []⟩ :
          SearchState Nat Nat).remaining w)) ∧
      (undoEdge (assignEdge (⟨fun _ => [0, 1], fun _ => [], fun _ => 0, []⟩ :
          SearchState Nat Nat) 0 1 0) 0 1 0).edgeColors =
        (⟨fun _ => [0, 1], fun _ => [], fun _ => 0, []⟩ :
          SearchState Nat Nat).edgeColors ∧
      (∀ (es2 : List (Nat × Nat)) (p : SearchState Nat Nat × List (Coloring Nat Nat)),
        ∃ t, (backtrackS (fun _ => 2) [0, 1] es2 p).2 = p.2 ++ t)) :=
  ⟨⟨by decide, by decide⟩,
    copies_and_restore (fun _ => 2) [0, 1] []
      (⟨fun _ => [0, 1], fun _ => [], fun _ => 0, []⟩ : SearchState Nat Nat) [] 0 1 0
      (assignEdge (⟨fun _ => [0, 1], fun _ => [], fun _ => 0, []⟩ :
        SearchState Nat Nat) 0 1 0, [])
      (by decide) (by decide) (by decide)
      (fun w => (show ([0, 1] : List Nat).Nodup by decide))
      (fun w c2 _ => List.not_mem_nil c2)
      (fun e he => absurd he (List.not_mem_nil e))
      List.nodup_nil
      (fun e he => absurd he (List.not_mem_nil e))
      (List.not_mem_nil _)
      (List.not_mem_nil _)
      (by rfl)⟩

end Colortrade
